import Mathlib

/-!
Verification development for the Polymarket websocket price tracker and
order lifecycle code.  The definitions below are a shallow embedding of
`leader_leader_with_websocket.py` (the `TokenState` rolling-history class
and the trigger evaluation inside `ws_run`) and of `helpers.py`
(`parse_order_info`, `monitor_order`, `cancel_order`,
`execute_trade_lagger`).  Python floats are modelled as rationals,
timestamps as integers, and Python heterogeneous dict payloads as the
`PyVal` type.
-/

/-- Embeds `TRADE_HISTORY_SECONDS = LOOKBACK_SECONDS * 2` in the source (120). -/
def TRADE_HISTORY_SECONDS : Int := 120

/-- Embeds `STALE_OLD_SECONDS = 300` in the source. -/
def STALE_OLD_SECONDS : Int := 300

/-- Embeds `LOOKBACK_SECONDS = 60` in the source. -/
def LOOKBACK_SECONDS : Int := 60

/-- Embeds `TRIGGER_AMOUNT = 0.1` in the source. -/
def TRIGGER_AMOUNT : ℚ := 1/10

/-- Embeds `TRADE_COOLDOWN_SECONDS = 180` in the source. -/
def TRADE_COOLDOWN_SECONDS : Int := 180

/-- One entry of `TokenState.trade_history`: `(ts_s, price, notional)`. -/
abbrev Trade := Int × ℚ × Option ℚ

/-- One entry of `TokenState.ask_history`: `(ts_s, best_ask)`. -/
abbrev Ask := Int × ℚ

/-- Embeds `TokenState._trim_trades`: pop from the front while the SECOND entry is
older than `TRADE_HISTORY_SECONDS` (so the newest entry always survives):
`while len(h) > 1 and (now_s - h[1][0] > TRADE_HISTORY_SECONDS): h.popleft()`. -/
def trimTrades (now : Int) : List Trade → List Trade
  | a :: b :: l =>
      if TRADE_HISTORY_SECONDS < now - b.1 then trimTrades now (b :: l)
      else a :: b :: l
  | l => l

/-- Embeds `TokenState._trim`: pop from the front while the FRONT entry is older
than the lookback: `while h and (now_s - h[0][0] > lookback): h.popleft()`.
Unlike `_trim_trades` there is no `len > 1` guard, so this can empty the
deque. -/
def trimAsks (lookback now : Int) : List Ask → List Ask
  | a :: l => if lookback < now - a.1 then trimAsks lookback now l else a :: l
  | [] => []

/-- The `old = ...; for ts_s, price, _size in trade_history: if now_s - ts_s >=
lookback: old = price else: break` loop of `get_current_and_old_trade`. -/
def scanOld (now lookback : Int) (acc : ℚ) : List Trade → ℚ
  | [] => acc
  | t :: l => if lookback ≤ now - t.1 then scanOld now lookback t.2.1 l else acc

/-- Embeds `TokenState.get_current_and_old_trade`, as a pure function of the stored
trade history: trim, answer `(None, None)` on an empty history, report
`old = None` when the newest trade is at least `STALE_OLD_SECONDS` old,
otherwise run the oldest-to-newest scan for the lagged price. -/
def get_current_and_old_trade (lookback now : Int) (hist : List Trade) :
    Option ℚ × Option ℚ :=
  match (trimTrades now hist).getLast? with
  | none => (none, none)
  | some c =>
      if STALE_OLD_SECONDS ≤ now - c.1 then (some c.2.1, none)
      else (some c.2.1, some (scanOld now lookback c.2.1 (trimTrades now hist)))

/-- The `trade_history` effect of `TokenState._record_trade`: append
`(ts, price, notional)` then `_trim_trades(ts)`. -/
def recordTrade (hist : List Trade) (ts : Int) (p : ℚ) (notional : Option ℚ) :
    List Trade :=
  trimTrades ts (hist ++ [(ts, p, notional)])

/-- Folding a whole sequence of trade observations into a fresh (empty)
trade history via `_record_trade`. -/
def recordAll (xs : List Trade) : List Trade :=
  xs.foldl (fun h t => recordTrade h t.1 t.2.1 t.2.2) []

/-- The lagged-price selection rule exactly as the spec words it: the last
observation whose age `now - ts` is at least the horizon. -/
def lastQualifying (now lookback : Int) (xs : List Trade) : Option Trade :=
  (xs.filter (fun t => decide (lookback ≤ now - t.1))).getLast?

/-- The result the spec's sentence predicts for `currentAndLagged`:
current = most recent price, lagged = price of the last observation at
least `lookback` old, defaulting to current. -/
def claimResult (lookback now : Int) (xs : List Trade) : Option ℚ × Option ℚ :=
  match xs.getLast? with
  | none => (none, none)
  | some c =>
      (some c.2.1, some (((lastQualifying now lookback xs).map (fun t => t.2.1)).getD c.2.1))

section TrimLemmas

theorem trimTrades_suffix (now : Int) (l : List Trade) : trimTrades now l <:+ l := by
  induction l with
  | nil => simp [trimTrades]
  | cons a l ih =>
    cases l with
    | nil => simp [trimTrades]
    | cons b m =>
      by_cases h : TRADE_HISTORY_SECONDS < now - b.1
      · simp only [trimTrades, if_pos h]
        exact ih.trans (List.suffix_cons a (b :: m))
      · simp [trimTrades, if_neg h]

theorem trimTrades_getLast? (now : Int) (l : List Trade) :
    (trimTrades now l).getLast? = l.getLast? := by
  induction l with
  | nil => simp [trimTrades]
  | cons a l ih =>
    cases l with
    | nil => simp [trimTrades]
    | cons b m =>
      by_cases h : TRADE_HISTORY_SECONDS < now - b.1
      · simp only [trimTrades, if_pos h]
        rw [ih, List.getLast?_cons_cons]
      · simp [trimTrades, if_neg h]

theorem trimTrades_ne_nil (now : Int) (l : List Trade) (h : l ≠ []) :
    trimTrades now l ≠ [] := by
  have h3 : l.getLast?.isSome := List.getLast?_isSome.mpr h
  rw [← trimTrades_getLast? now l] at h3
  intro hcon
  rw [hcon] at h3
  simp at h3

theorem trimTrades_absorb {t now : Int} (htn : t ≤ now) (l : List Trade) :
    trimTrades now (trimTrades t l) = trimTrades now l := by
  induction l with
  | nil => simp [trimTrades]
  | cons a l ih =>
    cases l with
    | nil => simp [trimTrades]
    | cons b m =>
      by_cases h : TRADE_HISTORY_SECONDS < now - b.1
      · by_cases h' : TRADE_HISTORY_SECONDS < t - b.1
        · simp only [trimTrades, if_pos h, if_pos h']
          exact ih
        · simp only [trimTrades, if_pos h, if_neg h']
      · have h' : ¬ TRADE_HISTORY_SECONDS < t - b.1 := by
          intro hc; exact h (lt_of_lt_of_le hc (by omega))
        simp only [trimTrades, if_neg h, if_neg h']

theorem trimTrades_trim_append (now : Int) (l : List Trade) (x : Trade) :
    trimTrades now (trimTrades now l ++ [x]) = trimTrades now (l ++ [x]) := by
  induction l with
  | nil => simp [trimTrades]
  | cons a l ih =>
    cases l with
    | nil => simp [trimTrades]
    | cons b m =>
      by_cases h : TRADE_HISTORY_SECONDS < now - b.1
      · simp only [trimTrades, if_pos h]
        rw [ih]
        simp only [List.cons_append, trimTrades, if_pos h]
        rfl
      · simp only [trimTrades, if_neg h]

theorem recordAll_append_singleton (ys : List Trade) (x : Trade) :
    recordAll (ys ++ [x]) = trimTrades x.1 (recordAll ys ++ [x]) := by
  simp [recordAll, recordTrade, List.foldl_append]

theorem recordAll_trim (now : Int) (xs : List Trade) (hx : ∀ t ∈ xs, t.1 ≤ now) :
    trimTrades now (recordAll xs) = trimTrades now xs := by
  induction xs using List.reverseRecOn with
  | nil => simp [recordAll]
  | append_singleton ys x ih =>
    have hys : ∀ t ∈ ys, t.1 ≤ now := fun t ht => hx t (by simp [ht])
    have hxnow : x.1 ≤ now := hx x (by simp)
    rw [recordAll_append_singleton, trimTrades_absorb hxnow,
        ← trimTrades_trim_append, ih hys, trimTrades_trim_append]

theorem trimTrades_head_age (now : Int) (l : List Trade) :
    trimTrades now l = l ∨
      ∃ a t, trimTrades now l = a :: t ∧ TRADE_HISTORY_SECONDS < now - a.1 := by
  induction l with
  | nil => exact Or.inl rfl
  | cons a l ih =>
    cases l with
    | nil => exact Or.inl rfl
    | cons b m =>
      by_cases h : TRADE_HISTORY_SECONDS < now - b.1
      · refine Or.inr ?_
        rcases ih with heq | ⟨a', t', heq, hage⟩
        · exact ⟨b, m, by simp only [trimTrades, if_pos h]; exact heq, h⟩
        · exact ⟨a', t', by simp only [trimTrades, if_pos h]; exact heq, hage⟩
      · exact Or.inl (by simp [trimTrades, if_neg h])

theorem scanOld_eq (now lookback : Int) (l : List Trade)
    (hs : l.Pairwise (fun a b => a.1 ≤ b.1)) (acc : ℚ) :
    scanOld now lookback acc l =
      (((l.filter fun t => decide (lookback ≤ now - t.1)).getLast?.map
          (fun t => t.2.1)).getD acc) := by
  induction l generalizing acc with
  | nil => simp [scanOld]
  | cons t l ih =>
    have hall : ∀ u ∈ l, t.1 ≤ u.1 := (List.pairwise_cons.mp hs).1
    have htail : l.Pairwise (fun a b => a.1 ≤ b.1) := (List.pairwise_cons.mp hs).2
    by_cases hc : lookback ≤ now - t.1
    · simp only [scanOld, if_pos hc]
      rw [ih htail]
      have hfil : (t :: l).filter (fun t => decide (lookback ≤ now - t.1))
          = t :: l.filter (fun t => decide (lookback ≤ now - t.1)) := by
        simp [List.filter_cons, hc]
      rw [hfil]
      cases hfe : l.filter (fun t => decide (lookback ≤ now - t.1)) with
      | nil => simp
      | cons y ys =>
        rw [List.getLast?_cons_cons]
        obtain ⟨z, hz⟩ :=
          Option.isSome_iff_exists.mp (List.getLast?_isSome.mpr (List.cons_ne_nil y ys))
        rw [hz]
        simp
    · simp only [scanOld, if_neg hc]
      have hfil : (t :: l).filter (fun t => decide (lookback ≤ now - t.1)) = [] := by
        rw [List.filter_eq_nil_iff]
        intro u hu
        simp only [decide_eq_true_eq]
        rcases List.mem_cons.mp hu with rfl | hu'
        · exact hc
        · intro hcon
          exact hc (le_trans hcon (by have := hall u hu'; omega))
      rw [hfil]
      simp

theorem recordAll_getLast? (xs : List Trade) :
    (recordAll xs).getLast? = xs.getLast? := by
  induction xs using List.reverseRecOn with
  | nil => simp [recordAll]
  | append_singleton ys x ih =>
    rw [recordAll_append_singleton, trimTrades_getLast?, List.getLast?_concat,
        List.getLast?_concat]

theorem trimmed_filter_getLast? (now lookback : Int) (xs : List Trade)
    (hlb : lookback ≤ TRADE_HISTORY_SECONDS) :
    ((trimTrades now xs).filter fun t => decide (lookback ≤ now - t.1)).getLast?
      = (xs.filter fun t => decide (lookback ≤ now - t.1)).getLast? := by
  rcases trimTrades_head_age now xs with heq | ⟨a, t, heq, hage⟩
  · rw [heq]
  · obtain ⟨pre, hpre⟩ := trimTrades_suffix now xs
    rw [heq] at hpre
    have hqa : (fun t : Trade => decide (lookback ≤ now - t.1)) a = true := by
      simp only [decide_eq_true_eq]
      omega
    have hfa : (a :: t).filter (fun t => decide (lookback ≤ now - t.1))
        = a :: t.filter (fun t => decide (lookback ≤ now - t.1)) := by
      simp [List.filter_cons, hqa]
    rw [heq, hfa, ← hpre, List.filter_append, hfa, List.getLast?_append_cons]

section QueryTheorems

/-- C2: amended claim.  For every sequence of recorded trades with
non-decreasing timestamps, queried at a time `now` not before any
observation, AND whose most recent observation is still fresh
(less than `STALE_OLD_SECONDS = 300` seconds old — the staleness gate the
original claim omits), `get_current_and_old_trade` with the configured 60s
horizon returns current = most recent price and lagged = price of the last
observation at least 60s old, defaulting to current. -/
theorem C2_trade_query_amended (xs : List Trade) (now : Int)
    (hs : xs.Pairwise (fun a b => a.1 ≤ b.1))
    (hne : xs ≠ [])
    (hnow : ∀ t ∈ xs, t.1 ≤ now)
    (hfresh : ∀ c, xs.getLast? = some c → now - c.1 < STALE_OLD_SECONDS) :
    get_current_and_old_trade 60 now (recordAll xs) = claimResult 60 now xs := by
  obtain ⟨c, hc⟩ : ∃ c, xs.getLast? = some c :=
    Option.isSome_iff_exists.mp (List.getLast?_isSome.mpr hne)
  have hfr := hfresh c hc
  have htr : trimTrades now (recordAll xs) = trimTrades now xs :=
    recordAll_trim now xs hnow
  have hlast : (trimTrades now xs).getLast? = xs.getLast? := trimTrades_getLast? now xs
  have hpw : (trimTrades now xs).Pairwise (fun a b => a.1 ≤ b.1) :=
    List.Pairwise.sublist (List.IsSuffix.sublist (trimTrades_suffix now xs)) hs
  simp only [get_current_and_old_trade, htr, hlast, hc, claimResult]
  rw [if_neg (not_le.mpr hfr)]
  refine congrArg (fun q => (some c.2.1, some q)) ?_
  rw [scanOld_eq now 60 (trimTrades now xs) hpw c.2.1]
  unfold lastQualifying
  rw [trimmed_filter_getLast? now 60 xs (by simp [TRADE_HISTORY_SECONDS])]

/-- C2 counterexample: the claim as stated (for EVERY query time) fails
once the newest observation is at least 300s old: the code reports lagged
as unavailable while the claimed scan rule would report the last
observation's own price. -/
theorem C2_counterexample :
    get_current_and_old_trade 60 300 (recordAll [((0 : Int), (1 : ℚ)/2, (none : Option ℚ))])
        = (some (1/2), none)
      ∧ claimResult 60 300 [((0 : Int), (1 : ℚ)/2, (none : Option ℚ))]
        = (some (1/2), some (1/2)) := by
  constructor <;> with_unfolding_all decide

/-- C2 witness: the spec's concrete scenario — trades at t=0 (0.40),
t=30 (0.40), t=61 (0.55), queried at t=61 with a 60s horizon, yields
(0.55, 0.40). -/
theorem C2_witness :
    get_current_and_old_trade 60 61
        (recordAll [((0 : Int), (2 : ℚ)/5, (none : Option ℚ)),
          (30, 2/5, none), (61, 11/20, none)])
      = (some (11/20), some (2/5)) := by
  have h := C2_trade_query_amended
    [((0 : Int), (2 : ℚ)/5, (none : Option ℚ)), (30, 2/5, none), (61, 11/20, none)]
    61 (by decide) (by decide) (by decide) ?_
  · rw [h]; with_unfolding_all decide
  · intro c hc
    have h2 : ([((0 : Int), (2 : ℚ)/5, (none : Option ℚ)), (30, 2/5, none),
        (61, 11/20, none)].getLast?) = some ((61 : Int), (11 : ℚ)/20, none) := by
      with_unfolding_all decide
    rw [h2] at hc
    cases hc
    decide

/-- C3: once the newest recorded trade is at least `STALE_OLD_SECONDS = 300`
seconds old at query time, the query returns the newest price as current and
`none` as lagged, for every horizon. -/
theorem C3_stale_query (xs : List Trade) (now lookback : Int) (c : Trade)
    (hlast : xs.getLast? = some c) (hstale : STALE_OLD_SECONDS ≤ now - c.1) :
    get_current_and_old_trade lookback now (recordAll xs) = (some c.2.1, none) := by
  simp only [get_current_and_old_trade, trimTrades_getLast?, recordAll_getLast?, hlast]
  rw [if_pos hstale]

/-- C3 witness: last trade at price 0.50, no trades for 301 seconds:
`currentAndLagged(60)` returns (0.50, none). -/
theorem C3_witness :
    get_current_and_old_trade 60 301 (recordAll [((0 : Int), (1 : ℚ)/2, (none : Option ℚ))])
      = (some (1/2), none) := by
  exact C3_stale_query [((0 : Int), (1 : ℚ)/2, (none : Option ℚ))] 301 60
    ((0 : Int), (1 : ℚ)/2, none) (by with_unfolding_all decide) (by decide)

end QueryTheorems

section AskTrim

theorem trimAsks_suffix (lookback now : Int) (l : List Ask) :
    trimAsks lookback now l <:+ l := by
  induction l with
  | nil => simp [trimAsks]
  | cons a l ih =>
    by_cases h : lookback < now - a.1
    · simp only [trimAsks, if_pos h]
      exact ih.trans (List.suffix_cons a l)
    · simp [trimAsks, if_neg h]

theorem trimAsks_append_fresh (lookback now : Int) (x : Ask) (l : List Ask)
    (hfresh : now - x.1 ≤ lookback) :
    trimAsks lookback now (l ++ [x]) ≠ []
      ∧ (trimAsks lookback now (l ++ [x])).getLast? = some x := by
  induction l with
  | nil =>
    have h : ¬ lookback < now - x.1 := not_lt.mpr hfresh
    simp [trimAsks, if_neg h]
  | cons a l ih =>
    by_cases h : lookback < now - a.1
    · simpa only [List.cons_append, trimAsks, if_pos h] using ih
    · refine ⟨by simp [List.cons_append, trimAsks, if_neg h], ?_⟩
      simp only [List.cons_append, trimAsks, if_neg h]
      show ((a :: l) ++ [x]).getLast? = some x
      rw [List.getLast?_concat]

/-- C8 counterexample: the ask-history trim (`TokenState._trim`) can empty
the window during a query — it does NOT always retain the most recent
entry.  With lookback 60, an ask recorded at t=0 is dropped entirely when
trimming at t=61. -/
theorem C8_counterexample :
    trimAsks 60 61 [((0 : Int), (1 : ℚ)/2)] = [] := by
  with_unfolding_all decide

/-- C8: amended claim.  Both trims remove entries only from the front
(the result is a suffix of the input).  The trade-history trim always
retains the most recent entry once one observation exists, even when it is
older than the horizon.  The ask-history trim retains the just-appended
newest entry on mutations (which trim at that entry's own timestamp, for a
nonnegative lookback), but — contrary to the original claim — a query-time
ask-history trim may empty the window (see the counterexample). -/
theorem C8_trim_amended :
    (∀ (lookback now : Int) (l : List Ask), trimAsks lookback now l <:+ l)
    ∧ (∀ (now : Int) (l : List Trade), trimTrades now l <:+ l)
    ∧ (∀ (now : Int) (l : List Trade), l ≠ [] →
        trimTrades now l ≠ [] ∧ (trimTrades now l).getLast? = l.getLast?)
    ∧ (∀ (lookback ts : Int) (a : ℚ) (l : List Ask), 0 ≤ lookback →
        trimAsks lookback ts (l ++ [(ts, a)]) ≠ []
          ∧ (trimAsks lookback ts (l ++ [(ts, a)])).getLast? = some (ts, a)) :=
  ⟨trimAsks_suffix, trimTrades_suffix,
   fun now l h => ⟨trimTrades_ne_nil now l h, trimTrades_getLast? now l⟩,
   fun lookback ts a l hlb =>
     trimAsks_append_fresh lookback ts (ts, a) l (by simpa using hlb)⟩

/-- C8 witness: concrete instances of the amended trimming guarantees. -/
theorem C8_witness :
    trimTrades 500 [((0 : Int), (1 : ℚ), (none : Option ℚ))] ≠ []
      ∧ (trimAsks 60 61 ([((0 : Int), (1 : ℚ))] ++ [(61, 2)])).getLast?
          = some ((61 : Int), (2 : ℚ)) := by
  refine ⟨(C8_trim_amended.2.2.1 500 _ (by simp)).1, ?_⟩
  exact (C8_trim_amended.2.2.2 60 61 2 [((0 : Int), (1 : ℚ))] (by norm_num)).2

end AskTrim

/-- The fields of `TokenState` in `leader_leader_with_websocket.py`. -/
structure TokenState where
  lookback_seconds : Int
  best_bid : Option ℚ := none
  best_ask : Option ℚ := none
  last_trade_price : Option ℚ := none
  last_trade_side : Option String := none
  last_trade_size : Option ℚ := none
  last_trade_ts_s : Option Int := none
  trade_history : List Trade := []
  ask_history : List Ask := []
  last_update_ts_s : Option Int := none

/-- Embeds `TokenState._record_best_ask`: set `best_ask`, append `(ts, best_ask)`
to the ask history, then `_trim(ts)`. -/
def record_best_ask (st : TokenState) (ts : Int) (ba : ℚ) : TokenState :=
  { st with best_ask := some ba,
            ask_history := trimAsks st.lookback_seconds ts (st.ask_history ++ [(ts, ba)]) }

/-- Embeds `TokenState._record_trade`: `notional = price * size` when both are
present, else `size` (here price is always present); update the last-trade
fields, append to the trade history, then `_trim_trades(ts)`. -/
def record_trade (st : TokenState) (ts : Int) (price : ℚ) (side : Option String)
    (size : Option ℚ) : TokenState :=
  let notional : Option ℚ := match size with
    | some s => some (price * s)
    | none => none
  { st with last_trade_price := some price, last_trade_side := side,
            last_trade_size := notional, last_trade_ts_s := some ts,
            trade_history := trimTrades ts (st.trade_history ++ [(ts, price, notional)]) }

/-- Embeds `TokenState.update_from_book`.  `bids`/`asks` are the book levels with
their already-parsed prices (`none` for an unparsable level price, as
`_to_float` yields); only the top level is read.  The best ask is recorded
only when it moved by more than `1e-12` from the previously recorded value;
a present `last_trade_price` also records a trade.  (The Python method also
returns the recorded trade dict; that value is unused by callers and not
modelled.) -/
def headPrice : List (Option ℚ) → Option ℚ
  | [] => none
  | p :: _ => p

/-- The `if bb is not None: self.best_bid = bb` block shared by
`update_from_book` and `update_from_price_change`. -/
def bidStep (st : TokenState) (bb : Option ℚ) : TokenState :=
  match bb with
  | some v => { st with best_bid := some v }
  | none => st

/-- The `if ba is not None: if self.best_ask is None or abs(ba -
self.best_ask) > 1e-12: self._record_best_ask(ts_s, ba)` de-noising block
shared by `update_from_book` and `update_from_price_change`. -/
def askStep (st : TokenState) (ts : Int) (ba : Option ℚ) : TokenState :=
  match ba with
  | some v =>
      match st.best_ask with
      | none => record_best_ask st ts v
      | some prev =>
          if 1 / 10 ^ 12 < |v - prev| then record_best_ask st ts v else st
  | none => st

def update_from_book (st : TokenState) (ts : Int) (bids asks : List (Option ℚ))
    (last_trade_price : Option ℚ) : TokenState :=
  let st1 := { st with last_update_ts_s := some ts }
  let st2 := bidStep st1 (headPrice bids)
  let st3 := askStep st2 ts (headPrice asks)
  match last_trade_price with
  | some p => record_trade st3 ts p none none
  | none => st3

/-- Embeds `TokenState.update_from_price_change`: same bid/ask update semantics as
`update_from_book`, no trade side effect. -/
def update_from_price_change (st : TokenState) (ts : Int) (best_bid best_ask : Option ℚ) :
    TokenState :=
  let st1 := { st with last_update_ts_s := some ts }
  let st2 := bidStep st1 best_bid
  askStep st2 ts best_ask

/-- Embeds `TokenState.update_from_last_trade`: records a trade when the price is
parsable. -/
def update_from_last_trade (st : TokenState) (ts : Int) (price : Option ℚ)
    (side : Option String) (size : Option ℚ) : TokenState :=
  let st1 := { st with last_update_ts_s := some ts }
  match price with
  | some p => record_trade st1 ts p side size
  | none => st1

theorem record_trade_ask_history (st : TokenState) (ts : Int) (price : ℚ)
    (side : Option String) (size : Option ℚ) :
    (record_trade st ts price side size).ask_history = st.ask_history := by
  cases size <;> rfl

theorem record_trade_best_ask (st : TokenState) (ts : Int) (price : ℚ)
    (side : Option String) (size : Option ℚ) :
    (record_trade st ts price side size).best_ask = st.best_ask := by
  cases size <;> rfl

theorem record_trade_lookback (st : TokenState) (ts : Int) (price : ℚ)
    (side : Option String) (size : Option ℚ) :
    (record_trade st ts price side size).lookback_seconds = st.lookback_seconds := by
  cases size <;> rfl

theorem bidStep_fields (st : TokenState) (bb : Option ℚ) :
    (bidStep st bb).best_ask = st.best_ask
      ∧ (bidStep st bb).ask_history = st.ask_history
      ∧ (bidStep st bb).lookback_seconds = st.lookback_seconds := by
  cases bb <;> exact ⟨rfl, rfl, rfl⟩

theorem askStep_length (st : TokenState) (ts : Int) (ba : Option ℚ) :
    (askStep st ts ba).ask_history.length ≤ st.ask_history.length + 1 := by
  cases ba with
  | none => simp [askStep]
  | some v =>
    have hrec : (record_best_ask st ts v).ask_history.length ≤ st.ask_history.length + 1 := by
      have h := (trimAsks_suffix st.lookback_seconds ts (st.ask_history ++ [(ts, v)])).sublist.length_le
      simpa [record_best_ask] using h
    cases hba : st.best_ask with
    | none =>
      simp only [askStep, hba]
      exact hrec
    | some prev =>
      simp only [askStep, hba]
      by_cases h : 1 / 10 ^ 12 < |v - prev|
      · rw [if_pos h]; exact hrec
      · rw [if_neg h]; exact Nat.le_succ _

theorem askStep_congr (s₁ s₂ : TokenState) (ts : Int) (ba : Option ℚ)
    (hba : s₁.best_ask = s₂.best_ask) (hah : s₁.ask_history = s₂.ask_history)
    (hlb : s₁.lookback_seconds = s₂.lookback_seconds) :
    (askStep s₁ ts ba).best_ask = (askStep s₂ ts ba).best_ask
      ∧ (askStep s₁ ts ba).ask_history = (askStep s₂ ts ba).ask_history := by
  cases ba with
  | none => exact ⟨hba, hah⟩
  | some v =>
    cases h1 : s₂.best_ask with
    | none =>
      have h1' : s₁.best_ask = none := by rw [hba, h1]
      simp only [askStep, h1, h1']
      exact ⟨rfl, by simp [record_best_ask, hah, hlb]⟩
    | some prev =>
      have h1' : s₁.best_ask = some prev := by rw [hba, h1]
      simp only [askStep, h1, h1']
      by_cases h : 1 / 10 ^ 12 < |v - prev|
      · rw [if_pos h, if_pos h]
        exact ⟨rfl, by simp [record_best_ask, hah, hlb]⟩
      · rw [if_neg h, if_neg h]
        exact ⟨hba, hah⟩

theorem askStep_idem (st : TokenState) (ts : Int) (ba : Option ℚ) :
    (askStep (askStep st ts ba) ts ba).ask_history = (askStep st ts ba).ask_history := by
  cases ba with
  | none => rfl
  | some v =>
    have hveq : ¬ (1 / 10 ^ 12 : ℚ) < |v - v| := by
      rw [sub_self, abs_zero]
      norm_num
    have hrb : (record_best_ask st ts v).best_ask = some v := rfl
    cases h1 : st.best_ask with
    | none =>
      conv_lhs => rw [askStep]
      simp only [askStep, h1, hrb]
      rw [if_neg hveq]
    | some prev =>
      by_cases h : 1 / 10 ^ 12 < |v - prev|
      · conv_lhs => rw [askStep]
        simp only [askStep, h1, if_pos h, hrb]
        rw [if_neg hveq]
      · conv_lhs => rw [askStep]
        simp only [askStep, h1, if_neg h]

theorem askStep_lookback (st : TokenState) (ts : Int) (ba : Option ℚ) :
    (askStep st ts ba).lookback_seconds = st.lookback_seconds := by
  cases ba with
  | none => rfl
  | some v =>
    cases h1 : st.best_ask with
    | none => simp only [askStep, h1]; rfl
    | some prev =>
      simp only [askStep, h1]
      by_cases h : 1 / 10 ^ 12 < |v - prev|
      · rw [if_pos h]; rfl
      · rw [if_neg h]

theorem update_from_book_fields (s : TokenState) (ts : Int)
    (bids asks : List (Option ℚ)) (ltp : Option ℚ) :
    (update_from_book s ts bids asks ltp).best_ask
        = (askStep (bidStep { s with last_update_ts_s := some ts } (headPrice bids))
            ts (headPrice asks)).best_ask
      ∧ (update_from_book s ts bids asks ltp).ask_history
        = (askStep (bidStep { s with last_update_ts_s := some ts } (headPrice bids))
            ts (headPrice asks)).ask_history
      ∧ (update_from_book s ts bids asks ltp).lookback_seconds
        = (askStep (bidStep { s with last_update_ts_s := some ts } (headPrice bids))
            ts (headPrice asks)).lookback_seconds := by
  cases ltp with
  | none => exact ⟨rfl, rfl, rfl⟩
  | some p =>
    exact ⟨record_trade_best_ask _ ts p none none,
           record_trade_ask_history _ ts p none none,
           record_trade_lookback _ ts p none none⟩

theorem bidStep_pre_fields (s : TokenState) (ts : Int) (bb : Option ℚ) :
    (bidStep { s with last_update_ts_s := some ts } bb).best_ask = s.best_ask
      ∧ (bidStep { s with last_update_ts_s := some ts } bb).ask_history = s.ask_history
      ∧ (bidStep { s with last_update_ts_s := some ts } bb).lookback_seconds
          = s.lookback_seconds := by
  cases bb <;> exact ⟨rfl, rfl, rfl⟩

/-- C9: feeding the same book snapshot (same bids, asks, timestamp and
last-trade price) twice in a row leaves the ask history unchanged on the
second application — the de-noising epsilon check suppresses the duplicate
— so two applications grow the ask history by at most one entry. -/
theorem C9_book_snapshot_dedup (st : TokenState) (ts : Int)
    (bids asks : List (Option ℚ)) (ltp : Option ℚ) :
    (update_from_book (update_from_book st ts bids asks ltp) ts bids asks ltp).ask_history
        = (update_from_book st ts bids asks ltp).ask_history
      ∧ (update_from_book (update_from_book st ts bids asks ltp)
            ts bids asks ltp).ask_history.length
        ≤ st.ask_history.length + 1 := by
  obtain ⟨hB1a, hB1h, hB1l⟩ := bidStep_pre_fields st ts (headPrice bids)
  obtain ⟨hA1a, hA1h, hA1l⟩ := update_from_book_fields st ts bids asks ltp
  obtain ⟨hB2a, hB2h, hB2l⟩ :=
    bidStep_pre_fields (update_from_book st ts bids asks ltp) ts (headPrice bids)
  obtain ⟨hA2a, hA2h, hA2l⟩ :=
    update_from_book_fields (update_from_book st ts bids asks ltp) ts bids asks ltp
  have hcongr := askStep_congr
    (bidStep { update_from_book st ts bids asks ltp with last_update_ts_s := some ts }
      (headPrice bids))
    (askStep (bidStep { st with last_update_ts_s := some ts } (headPrice bids))
      ts (headPrice asks))
    ts (headPrice asks)
    (by rw [hB2a, hA1a]) (by rw [hB2h, hA1h]) (by rw [hB2l, hA1l])
  have hidem := askStep_idem
    (bidStep { st with last_update_ts_s := some ts } (headPrice bids)) ts (headPrice asks)
  constructor
  · rw [hA2h, hcongr.2, hidem, ← hA1h]
  · rw [hA2h, hcongr.2, hidem]
    have hlen := askStep_length
      (bidStep { st with last_update_ts_s := some ts } (headPrice bids)) ts (headPrice asks)
    rw [hB1h] at hlen
    exact hlen

/-- The `order_state` dict of `ws_run`: `{"active": ..., "last_status": ...,
"cooldown_until": ...}`. -/
structure OrderState where
  active : Bool
  last_status : String
  cooldown_until : Int
deriving DecidableEq

/-- The trigger evaluation performed inside `ws_run` after each event batch:
read `(cur, old)` for the leader token, and when no order task is active,
the cooldown has elapsed, both prices are available and
`cur - old > TRIGGER_AMOUNT`, read the lagger's lagged price; when it is
available, mark the state active/"submitting", push `cooldown_until` to
`now + TRADE_COOLDOWN_SECONDS` and schedule the order task (the returned
`Bool` is `true` exactly when `asyncio.create_task` is called). -/
def triggerStep (os : OrderState) (leaderHist laggerHist : List Trade) (now : Int) :
    OrderState × Bool :=
  match get_current_and_old_trade LOOKBACK_SECONDS now leaderHist with
  | (some cur, some old) =>
      if os.active = false ∧ os.cooldown_until ≤ now ∧ TRIGGER_AMOUNT < cur - old then
        match (get_current_and_old_trade LOOKBACK_SECONDS now laggerHist).2 with
        | some _ =>
            ({ active := true, last_status := "submitting",
               cooldown_until := now + TRADE_COOLDOWN_SECONDS }, true)
        | none => (os, false)
      else (os, false)
  | _ => (os, false)

/-- Events seen by the shared trigger state: an evaluation pass (with the
tracker data and clock at that moment), or completion of the in-flight
order task (`run_lagger_trade`'s final block: clear `active`, set
`last_status`; `cooldown_until` untouched). -/
inductive TrigEvent where
  | eval (leaderHist laggerHist : List Trade) (now : Int)
  | taskDone (status : String)

def trigEventStep (os : OrderState) : TrigEvent → OrderState × Bool
  | .eval lh gh t => triggerStep os lh gh t
  | .taskDone st => ({ os with active := false, last_status := st }, false)

/-- Run a sequence of trigger-state events; the `Bool` records whether any
evaluation fired. -/
def runEvents (os : OrderState) : List TrigEvent → OrderState × Bool
  | [] => (os, false)
  | e :: es =>
      let r := trigEventStep os e
      let r' := runEvents r.1 es
      (r'.1, r.2 || r'.2)

/-- The firing condition of the amended claim C1: the four leader-side
conditions PLUS availability of the lagger's lagged reference price. -/
def fireCond (os : OrderState) (lh gh : List Trade) (now : Int) : Prop :=
  os.active = false ∧ os.cooldown_until ≤ now ∧
    (∃ cur old, get_current_and_old_trade LOOKBACK_SECONDS now lh = (some cur, some old)
      ∧ TRIGGER_AMOUNT < cur - old)
    ∧ ((get_current_and_old_trade LOOKBACK_SECONDS now gh).2).isSome

theorem triggerStep_fire_iff (os : OrderState) (lh gh : List Trade) (now : Int) :
    (triggerStep os lh gh now).2 = true ↔ fireCond os lh gh now := by
  rcases hleader : get_current_and_old_trade LOOKBACK_SECONDS now lh with ⟨cur?, old?⟩
  constructor
  · intro hf
    cases cur? with
    | none =>
      simp only [triggerStep, hleader] at hf
      exact Bool.noConfusion hf
    | some cur =>
      cases old? with
      | none =>
        simp only [triggerStep, hleader] at hf
        exact Bool.noConfusion hf
      | some old =>
        simp only [triggerStep, hleader] at hf
        by_cases hcond : os.active = false ∧ os.cooldown_until ≤ now
            ∧ TRIGGER_AMOUNT < cur - old
        · rw [if_pos hcond] at hf
          cases hlag : (get_current_and_old_trade LOOKBACK_SECONDS now gh).2 with
          | none => rw [hlag] at hf; simp at hf
          | some x =>
            exact ⟨hcond.1, hcond.2.1, ⟨cur, old, hleader, hcond.2.2⟩, by rw [hlag]; rfl⟩
        · rw [if_neg hcond] at hf
          simp at hf
  · rintro ⟨ha, hc, ⟨cur, old, hl, hd⟩, hg⟩
    rw [hleader] at hl
    cases hl
    obtain ⟨x, hx⟩ := Option.isSome_iff_exists.mp hg
    simp only [triggerStep, hleader, hx]
    rw [if_pos ⟨ha, hc, hd⟩]

theorem triggerStep_fire_state (os : OrderState) (lh gh : List Trade) (now : Int)
    (hf : (triggerStep os lh gh now).2 = true) :
    (triggerStep os lh gh now).1
      = { active := true, last_status := "submitting",
          cooldown_until := now + TRADE_COOLDOWN_SECONDS } := by
  obtain ⟨ha, hcool, ⟨cur, old, hl, hd⟩, hg⟩ := (triggerStep_fire_iff os lh gh now).mp hf
  obtain ⟨x, hx⟩ := Option.isSome_iff_exists.mp hg
  simp only [triggerStep, hl, hx]
  rw [if_pos ⟨ha, hcool, hd⟩]

theorem triggerStep_cooldown_blocked (os : OrderState) (lh gh : List Trade) (now : Int)
    (h : now < os.cooldown_until) :
    triggerStep os lh gh now = (os, false) := by
  unfold triggerStep
  split
  · rw [if_neg]
    intro hcond
    exact absurd hcond.2.1 (not_le.mpr h)
  · rfl

theorem runEvents_no_fire (os : OrderState) (evs : List TrigEvent)
    (h : ∀ lh gh t, TrigEvent.eval lh gh t ∈ evs → t < os.cooldown_until) :
    (runEvents os evs).2 = false := by
  induction evs generalizing os with
  | nil => rfl
  | cons e es ih =>
    cases e with
    | eval lh gh t =>
      have ht : t < os.cooldown_until := h lh gh t (by simp)
      have hstep : trigEventStep os (.eval lh gh t) = (os, false) :=
        triggerStep_cooldown_blocked os lh gh t ht
      simp only [runEvents, hstep]
      simpa using ih os (fun lh' gh' t' ht' => h lh' gh' t' (by simp [ht']))
    | taskDone st =>
      have hstep : trigEventStep os (.taskDone st)
          = ({ os with active := false, last_status := st }, false) := rfl
      simp only [runEvents, hstep]
      simpa using ih { os with active := false, last_status := st }
        (fun lh' gh' t' ht' => h lh' gh' t' (by simp [ht']))

/-- C1: amended claim.  The trigger evaluation fires (returns `true`,
marking the state active/"submitting" and advancing `cooldown_until` by the
cooldown) if and only if the four leader-side conditions hold AND — the
condition the original claim omits — the lagger's lagged reference price is
available.  Moreover a firing step sets `cooldown_until = now + 180`, and
from any state no evaluation at a time before `cooldown_until` can fire, no
matter what data it sees (so a fire is never followed by a second fire
before the cooldown elapses, even on identical data). -/
theorem C1_trigger_amended :
    (∀ (os : OrderState) (lh gh : List Trade) (now : Int),
        (triggerStep os lh gh now).2 = true ↔ fireCond os lh gh now)
    ∧ (∀ (os : OrderState) (lh gh : List Trade) (now : Int),
        (triggerStep os lh gh now).2 = true →
          (triggerStep os lh gh now).1
            = { active := true, last_status := "submitting",
                cooldown_until := now + TRADE_COOLDOWN_SECONDS })
    ∧ (∀ (os : OrderState) (evs : List TrigEvent),
        (∀ lh gh t, TrigEvent.eval lh gh t ∈ evs → t < os.cooldown_until) →
          (runEvents os evs).2 = false) :=
  ⟨triggerStep_fire_iff, triggerStep_fire_state, runEvents_no_fire⟩

/-- C1 counterexample: all four conditions the claim lists hold (idle
state, cooldown elapsed, leader cur=0.62 / lagged=0.50 available, delta
0.12 > 0.10), yet the step does not fire because the lagger history is
empty, so its reference price is unavailable — the claimed "if and only if"
fails in the "if" direction. -/
theorem C1_counterexample :
    (triggerStep ⟨false, "", 0⟩
        [((0 : Int), (1 : ℚ)/2, (none : Option ℚ)), (61, 31/50, none)] [] 61).2 = false
    ∧ (⟨false, "", 0⟩ : OrderState).active = false
    ∧ (⟨false, "", 0⟩ : OrderState).cooldown_until ≤ 61
    ∧ get_current_and_old_trade LOOKBACK_SECONDS 61
        [((0 : Int), (1 : ℚ)/2, (none : Option ℚ)), (61, 31/50, none)]
        = (some (31/50), some (1/2))
    ∧ TRIGGER_AMOUNT < 31/50 - (1 : ℚ)/2 := by
  refine ⟨?_, rfl, by decide, ?_, ?_⟩ <;> with_unfolding_all decide

/-- C1 witness: the spec scenario — leader current 0.62, lagged 0.50,
threshold 0.10 (with the lagger's reference available) fires once, sets the
cooldown to 61 + 180 = 241, and re-evaluating the very same data at t=61
does not fire again. -/
theorem C1_witness :
    (triggerStep ⟨false, "", 0⟩
        [((0 : Int), (1 : ℚ)/2, (none : Option ℚ)), (61, 31/50, none)]
        [((0 : Int), (3 : ℚ)/10, (none : Option ℚ))] 61).2 = true
    ∧ (triggerStep ⟨false, "", 0⟩
        [((0 : Int), (1 : ℚ)/2, (none : Option ℚ)), (61, 31/50, none)]
        [((0 : Int), (3 : ℚ)/10, (none : Option ℚ))] 61).1
        = ⟨true, "submitting", 241⟩
    ∧ (runEvents ⟨true, "submitting", 241⟩
        [.eval [((0 : Int), (1 : ℚ)/2, (none : Option ℚ)), (61, 31/50, none)]
          [((0 : Int), (3 : ℚ)/10, (none : Option ℚ))] 61]).2 = false := by
  obtain ⟨h1, h2, h3⟩ := C1_trigger_amended
  have hfire := (h1 ⟨false, "", 0⟩
    [((0 : Int), (1 : ℚ)/2, (none : Option ℚ)), (61, 31/50, none)]
    [((0 : Int), (3 : ℚ)/10, (none : Option ℚ))] 61).mpr
    ⟨rfl, by decide,
     ⟨31/50, 1/2, by with_unfolding_all decide, by with_unfolding_all decide⟩,
     by with_unfolding_all decide⟩
  refine ⟨hfire, ?_, ?_⟩
  · rw [h2 _ _ _ _ hfire]
    with_unfolding_all decide
  · refine h3 _ _ ?_
    intro lh gh t ht
    simp only [List.mem_singleton] at ht
    injection ht with h₁ h₂ h₃
    subst h₃
    decide

/-- C7: when all leader-side trigger conditions hold but the lagger's
lagged reference price is unavailable, the evaluation step is a no-op: the
state (including `cooldown_until`) is returned unchanged and no task is
scheduled. -/
theorem C7_lagger_unavailable_noop (os : OrderState) (lh gh : List Trade) (now : Int)
    (ha : os.active = false) (hc : os.cooldown_until ≤ now)
    (cur old : ℚ)
    (hl : get_current_and_old_trade LOOKBACK_SECONDS now lh = (some cur, some old))
    (hd : TRIGGER_AMOUNT < cur - old)
    (hg : (get_current_and_old_trade LOOKBACK_SECONDS now gh).2 = none) :
    triggerStep os lh gh now = (os, false) := by
  simp only [triggerStep, hl, hg]
  rw [if_pos ⟨ha, hc, hd⟩]

/-- C7 witness: leader fires-worthy data with an empty lagger history —
the step returns the state unchanged and schedules nothing. -/
theorem C7_witness :
    triggerStep ⟨false, "", 0⟩
        [((0 : Int), (1 : ℚ)/2, (none : Option ℚ)), (61, 31/50, none)] [] 61
      = (⟨false, "", 0⟩, false) :=
  C7_lagger_unavailable_noop ⟨false, "", 0⟩
    [((0 : Int), (1 : ℚ)/2, (none : Option ℚ)), (61, 31/50, none)] [] 61
    rfl (by decide) (31/50) (1/2)
    (by with_unfolding_all decide) (by with_unfolding_all decide)
    (by with_unfolding_all decide)

/-! ## Embedding of `helpers.py`: venue payloads, `parse_order_info`,
`monitor_order`, `cancel_order` and `execute_trade_lagger`.

Python values occurring in venue payloads are modelled by `PyVal`; floats
are rationals.  `monitor_order`'s wall-clock deadline is modelled by the
finite list of poll outcomes: each list entry is one loop iteration
(`none` = the status fetch raised or returned `None`), and exhausting the
list is reaching the deadline. -/

inductive PyVal where
  | pynone
  | pybool (b : Bool)
  | num (q : ℚ)
  | str (s : String)
  | list (l : List PyVal)
  | dict (d : List (String × PyVal))

/-- Python truthiness, as used by `or` chains and `if not order_info`. -/
def truthy : PyVal → Bool
  | .pynone => false
  | .pybool b => b
  | .num q => decide (q ≠ 0)
  | .str s => decide (s ≠ "")
  | .list l => !l.isEmpty
  | .dict d => !d.isEmpty

/-- Python `a or b`. -/
def pyOr (a b : PyVal) : PyVal := if truthy a then a else b

def digitsToNat (l : List Char) : ℕ :=
  l.foldl (fun a c => 10 * a + (c.toNat - 48)) 0

/-- Model of Python `float(<str>)` for plain decimal literals (optional
sign, digits, optional fractional part).  Exponent/infinity forms are not
modelled; an unrecognized string parses to `none`, which `_num` coerces to
`0.0`, exactly as `float` raising inside `_num`'s `try` would. -/
def parseDecimal? (s : String) : Option ℚ :=
  let cs := s.trim.toList
  let signRest : ℚ × List Char :=
    match cs with
    | '-' :: r => (-1, r)
    | '+' :: r => (1, r)
    | r => (1, r)
  let ip := signRest.2.takeWhile (fun c => c ≠ '.')
  match signRest.2.dropWhile (fun c => c ≠ '.') with
  | [] =>
      if ip.isEmpty || !ip.all Char.isDigit then none
      else some (signRest.1 * digitsToNat ip)
  | _ :: fp =>
      if (ip.isEmpty && fp.isEmpty) || !ip.all Char.isDigit || !fp.all Char.isDigit
      then none
      else some (signRest.1 * ((digitsToNat ip : ℚ) + (digitsToNat fp : ℚ) / 10 ^ fp.length))

/-- Python `float(val)` lifted to `PyVal`: numbers and bools convert,
numeric strings parse, everything else raises (`none`). -/
def pyFloat? : PyVal → Option ℚ
  | .num q => some q
  | .pybool b => some (if b then 1 else 0)
  | .str s => parseDecimal? s
  | _ => none

/-- Embeds `_num`: `float(val)` with every exception coerced to `0.0`. -/
def _num (v : PyVal) : ℚ := (pyFloat? v).getD 0

/-- Python `str(val)`, modelled far enough for the status comparison:
non-string values never render to an order-status keyword. -/
def pyStr : PyVal → String
  | .str s => s
  | .pynone => "None"
  | .pybool b => if b then "True" else "False"
  | .num q => toString q
  | .list _ => "[list]"
  | .dict _ => "[dict]"

/-- Python `dict.get(k, dflt)` on an association list. -/
def pyGetD (d : List (String × PyVal)) (k : String) (dflt : PyVal) : PyVal :=
  match d.find? (fun kv => kv.1 == k) with
  | some kv => kv.2
  | none => dflt

/-- Python `dict.get(k)` (default `None`). -/
def pyGet (d : List (String × PyVal)) (k : String) : PyVal := pyGetD d k .pynone

def fillFieldKeys : List String :=
  ["filledSize", "filled", "totalFilled", "filledAmount", "fillAmount"]

/-- One fills-list entry's contribution:
`_num(fill.get("size") or fill.get("filled") or fill.get("makerAmount") or
fill.get("takerAmount"))` for dict entries, nothing for non-dict entries. -/
def fillsEntryNum : PyVal → ℚ
  | .dict fd =>
      _num (pyOr (pyGet fd "size") (pyOr (pyGet fd "filled")
        (pyOr (pyGet fd "makerAmount") (pyGet fd "takerAmount"))))
  | _ => 0

/-- Embeds `order_info.get("fills") or order_info.get("recentFills") or []`. -/
def fillsListVal (info : List (String × PyVal)) : PyVal :=
  pyOr (pyGet info "fills") (pyOr (pyGet info "recentFills") (.list []))

/-- The `fill_candidates` list of `parse_order_info`, after `_num`: the
five direct fields, plus the fills-list sum when the fills value is a
list. -/
def fillCandidates (info : List (String × PyVal)) : List ℚ :=
  let direct := fillFieldKeys.map (fun k => _num (pyGet info k))
  match fillsListVal info with
  | .list fl => direct ++ [fl.foldl (fun acc f => acc + fillsEntryNum f) 0]
  | _ => direct

/-- Embeds `filled_size = max((_num(v) for v in fill_candidates), default=0.0)`. -/
def rawFilledSize (info : List (String × PyVal)) : ℚ :=
  match fillCandidates info with
  | [] => 0
  | x :: xs => xs.foldl max x

/-- The `remaining_size` computation of `parse_order_info`: the direct
fields via `or`, else `size`/`quantity`/`amount` minus the filled size when
present (`.pynone` models Python `None`). -/
def remainingVal (info : List (String × PyVal)) (filled : ℚ) : PyVal :=
  match pyOr (pyGet info "remainingSize") (pyGet info "remaining") with
  | .pynone =>
      match pyOr (pyGet info "size") (pyOr (pyGet info "quantity") (pyGet info "amount")) with
      | .pynone => .pynone
      | b => .num (_num b - filled)
  | r => r

def fillSet : List String := ["filled", "closed", "matched"]

def cancelSet : List String := ["cancelled", "expired"]

/-- Embeds `parse_order_info(order_info, original_size)` for a dict-shaped
payload: the lowered status string, the normalized filled size (falling
back to the requested size on a terminal-fill status with truthy
`original_size` and no positive candidate), and the remaining size. -/
def parse_order_info (info : List (String × PyVal)) (original_size : ℚ) :
    String × ℚ × PyVal :=
  let status := (pyStr (pyGetD info "status" (.str ""))).toLower
  let filled := rawFilledSize info
  let remaining := remainingVal info filled
  let filled :=
    if filled ≤ 0 ∧ original_size ≠ 0 then
      if status ∈ fillSet then original_size else filled
    else filled
  (status, filled, remaining)

/-- Python `val <= 0` on a `PyVal`: defined for numbers and bools, a
`TypeError` (modelled as `.error`) otherwise. -/
def pyLeZero : PyVal → Except Unit Bool
  | .num q => .ok (decide (q ≤ 0))
  | .pybool b => .ok (decide ((if b then (1 : ℚ) else 0) ≤ 0))
  | _ => .error ()

/-- Embeds `monitor_order`'s polling loop.  Arguments: requested size, remaining
poll outcomes, `(last_status, last_filled)`.  Returns the result (`.error`
models an uncaught `TypeError` from the `remaining_size <= 0` comparison
on a non-numeric value) paired with `true` when the loop ended by
exhausting the deadline, plus the number of poll iterations consumed. -/
def monitorGo (sz : ℚ) : List (Option PyVal) → Option String × ℚ →
    Except Unit ((Option String × ℚ) × Bool) × ℕ
  | [], last => (.ok (last, true), 0)
  | p :: rest, last =>
    match p with
    | none =>
        let r := monitorGo sz rest last
        (r.1, r.2 + 1)
    | some info =>
        if truthy info then
          match info with
          | .dict d =>
              let pr := parse_order_info d sz
              if pr.1 ∈ fillSet then (.ok ((some pr.1, pr.2.1), false), 1)
              else if pr.1 ∈ cancelSet then (.ok ((some pr.1, pr.2.1), false), 1)
              else
                match pr.2.2 with
                | .pynone =>
                    let r := monitorGo sz rest (some pr.1, pr.2.1)
                    (r.1, r.2 + 1)
                | rem =>
                    match pyLeZero rem with
                    | .error _ => (.error (), 1)
                    | .ok true =>
                        (.ok ((some (if pr.1 = "" then "filled" else pr.1),
                              if pr.2.1 = 0 then sz else pr.2.1), false), 1)
                    | .ok false =>
                        let r := monitorGo sz rest (some pr.1, pr.2.1)
                        (r.1, r.2 + 1)
          | _ => (.error (), 1)
        else
          let r := monitorGo sz rest last
          (r.1, r.2 + 1)

def charsStartWith : List Char → List Char → Bool
  | [], _ => true
  | _ :: _, [] => false
  | p :: ps, c :: cs => p == c && charsStartWith ps cs

def charsContain (pat : List Char) : List Char → Bool
  | [] => pat.isEmpty
  | c :: rest => charsStartWith pat (c :: rest) || charsContain pat rest

/-- Python `pat in s` on strings. -/
def strContains (s pat : String) : Bool := charsContain pat.toList s.toList

def orderIdKeys : List String := ["orderId", "orderID", "id", "orderHash"]

/-- Embeds `extract_order_id`: a truthy value under one of the known id keys, else
the first truthy value under a key containing both "order" and "id"
(case-insensitively); `None` for non-dict responses. -/
def extract_order_id (resp : PyVal) : Option PyVal :=
  match resp with
  | .dict d =>
      match orderIdKeys.findSome? (fun k =>
          let v := pyGet d k
          if truthy v then some v else none) with
      | some v => some v
      | none =>
          d.findSome? (fun kv =>
            if strContains kv.1.toLower "order" && strContains kv.1.toLower "id"
                && truthy kv.2 then some kv.2 else none)
  | _ => none

/-- Model of Python `round(x, 2)`: round half to even at two decimals on
the exact rational (binary floating-point representation artifacts are not
modelled). -/
def round2 (q : ℚ) : ℚ :=
  let scaled := q * 100
  let f : Int := ⌊scaled⌋
  let frac := scaled - f
  let n : Int :=
    if 1 / 2 < frac then f + 1
    else if frac < 1 / 2 then f
    else if f % 2 = 0 then f else f + 1
  (n : ℚ) / 100

/-- An exception raised by `create_order`/`post_order`: a
`PolyApiException` carrying the detail string `_format_poly_exception`
builds, or any other exception. -/
inductive SubmitExc where
  | polyApi (detail : String)
  | generic

/-- The `except` classification in `execute_trade_lagger`: balance /
allowance / generic submit errors. -/
def classifySubmit : SubmitExc → String
  | .polyApi detail =>
      let d := detail.toLower
      if strContains d "balance" then "insufficient_balance"
      else if strContains d "allowance" || strContains d "approval" then "allowance_needed"
      else "submit_error"
  | .generic => "submit_error"

/-- One call issued by `execute_trade_lagger` against the venue client:
`create_order`, `post_order`, one `monitor_order` status poll, or
`cancel_order`. -/
inductive VCall where
  | create
  | post
  | poll
  | cancel

def countCancel : List VCall → ℕ
  | [] => 0
  | .cancel :: l => countCancel l + 1
  | _ :: l => countCancel l

/-- The venue client's scripted behaviour for one `execute_trade_lagger`
run: the outcomes of `create_order` and `post_order`, the successive
status-poll outcomes, and whether `cancel_order` reports success
(`cancel_order` returns `False` both when unsupported and on exception). -/
structure Venue where
  createResult : Except SubmitExc Unit
  postResult : Except SubmitExc PyVal
  polls : List (Option PyVal)
  cancelOk : Bool

def optMem (st? : Option String) (keys : List String) : Bool :=
  match st? with
  | some s => decide (s ∈ keys)
  | none => false

/-- Embeds `execute_trade_lagger`: cap the limit price (aborting with
`skipped_limit` before any venue call), submit (classifying submission
exceptions), monitor, and on a non-terminal outcome attempt one cancel,
reporting `cancelled` only if the cancel succeeded.  Returns the
`(status, filled)` result (`.error` = an exception escaped `monitor_order`)
together with the trace of venue calls.  (With `limit_price = 0` the Python
share computation would raise `ZeroDivisionError`; rational division
totalizes it as 0 — no claim involves that case.) -/
def execute_trade_lagger (venue : Venue)
    (lagger_price_1m_ago trigger_amount TRADE_AMOUNT_USDC : ℚ) :
    Except Unit (Option String × ℚ) × List VCall :=
  let limit_price := round2 (lagger_price_1m_ago + trigger_amount)
  if (9 : ℚ)/10 < limit_price then (.ok (some "skipped_limit", 0), [])
  else
    let shares := round2 (TRADE_AMOUNT_USDC / limit_price)
    match venue.createResult with
    | .error e => (.ok (some (classifySubmit e), 0), [.create])
    | .ok _ =>
        match venue.postResult with
        | .error e => (.ok (some (classifySubmit e), 0), [.create, .post])
        | .ok resp =>
            match extract_order_id resp with
            | none => (.ok (some "no_order_id", 0), [.create, .post])
            | some _ =>
                let m := monitorGo shares venue.polls (none, 0)
                let trace := [VCall.create, VCall.post] ++ List.replicate m.2 .poll
                match m.1 with
                | .error _ => (.error (), trace)
                | .ok ((st?, filled), _) =>
                    if optMem st? fillSet then (.ok (st?, filled), trace)
                    else if optMem st? cancelSet then (.ok (st?, filled), trace)
                    else if venue.cancelOk then
                      (.ok (some "cancelled", filled), trace ++ [.cancel])
                    else (.ok (st?, filled), trace ++ [.cancel])

theorem le_foldl_max (xs : List ℚ) (x a : ℚ) (h : a ≤ x ∨ a ∈ xs) :
    a ≤ xs.foldl max x := by
  induction xs generalizing x with
  | nil =>
    rcases h with h | h
    · simpa using h
    · simp at h
  | cons y ys ih =>
    rcases h with h | h
    · exact ih (max x y) (Or.inl (le_trans h (le_max_left x y)))
    · rcases List.mem_cons.mp h with rfl | h'
      · exact ih (max x a) (Or.inl (le_max_right x a))
      · exact ih (max x y) (Or.inr h')

theorem countCancel_append (l₁ l₂ : List VCall) :
    countCancel (l₁ ++ l₂) = countCancel l₁ + countCancel l₂ := by
  induction l₁ with
  | nil => simp [countCancel]
  | cons c l ih =>
    cases c
    all_goals simp [countCancel, ih]
    all_goals omega

theorem countCancel_replicate_poll (n : ℕ) :
    countCancel (List.replicate n VCall.poll) = 0 := by
  induction n with
  | zero => rfl
  | succ n ih => simpa [List.replicate, countCancel] using ih

/-- C4: when the computed limit price `round(ref + offset, 2)` exceeds the
0.90 ceiling, `execute_trade_lagger` returns `("skipped_limit", 0.0)`
before any venue call — the call trace is empty. -/
theorem C4_limit_capped (venue : Venue) (lagger_price trigger_amount amount : ℚ)
    (hcap : (9 : ℚ)/10 < round2 (lagger_price + trigger_amount)) :
    execute_trade_lagger venue lagger_price trigger_amount amount
      = (.ok (some "skipped_limit", 0), []) := by
  simp only [execute_trade_lagger]
  rw [if_pos hcap]

set_option maxRecDepth 4000 in
/-- C4 witness: reference 0.88, offset 0.05: limit 0.93 > 0.90, so the run
aborts as `skipped_limit` with zero venue calls, whatever the venue would
have answered. -/
theorem C4_witness :
    execute_trade_lagger ⟨.ok (), .ok (.dict []), [], false⟩ (88/100) (5/100) 10
      = (.ok (some "skipped_limit", 0), []) :=
  C4_limit_capped ⟨.ok (), .ok (.dict []), [], false⟩ (88/100) (5/100) 10
    (by with_unfolding_all decide)

set_option maxRecDepth 4000 in
/-- C10 counterexample: a dict payload with all five direct fill fields
present and negative and a truthy non-list `fills` value makes
`parse_order_info` report a NEGATIVE filled size: the maximum is taken over
the five negative candidates only, and the fills-sum candidate 0.0 is never
appended. -/
theorem C10_counterexample :
    (parse_order_info
        [("filledSize", .num (-1)), ("filled", .num (-1)), ("totalFilled", .num (-1)),
         ("filledAmount", .num (-1)), ("fillAmount", .num (-1)), ("fills", .pybool true)]
        9).2.1 < 0 := by
  with_unfolding_all decide

/-- C10: amended claim.  `parse_order_info` is total on dict payloads
(modelled by this function's totality), sums the fills list only over its
dict entries, takes the maximum over all candidates, and the filled size it
returns is nonnegative whenever the original size is nonnegative and at
least one of the five direct fill fields is missing or non-numeric (its
`_num` coercion to 0.0 then floors the maximum at zero). -/
theorem C10_parse_nonneg_amended (info : List (String × PyVal)) (sz : ℚ)
    (hsz : 0 ≤ sz)
    (hmiss : ∃ k ∈ fillFieldKeys, pyFloat? (pyGet info k) = none) :
    0 ≤ (parse_order_info info sz).2.1 := by
  obtain ⟨k, hk, hnone⟩ := hmiss
  have hz : _num (pyGet info k) = 0 := by simp [_num, hnone]
  have hmem : (0 : ℚ) ∈ fillFieldKeys.map (fun k => _num (pyGet info k)) := by
    rw [← hz]
    exact List.mem_map_of_mem _ hk
  have hzero : (0 : ℚ) ∈ fillCandidates info := by
    unfold fillCandidates
    cases fillsListVal info <;> simp_all
  have hraw : 0 ≤ rawFilledSize info := by
    unfold rawFilledSize
    cases hfc : fillCandidates info with
    | nil => exact le_refl 0
    | cons x xs =>
      rw [hfc] at hzero
      rcases List.mem_cons.mp hzero with h | h
      · exact le_foldl_max xs x 0 (Or.inl (le_of_eq h))
      · exact le_foldl_max xs x 0 (Or.inr h)
  show 0 ≤ (if rawFilledSize info ≤ 0 ∧ sz ≠ 0 then
      if (pyStr (pyGetD info "status" (.str ""))).toLower ∈ fillSet then sz
      else rawFilledSize info
    else rawFilledSize info)
  split_ifs <;> first | exact hsz | exact hraw

set_option maxRecDepth 4000 in
/-- C10 witness: a payload where the `filled` field is absent yields a
nonnegative filled size. -/
theorem C10_witness :
    0 ≤ (parse_order_info [("status", .str "matched"), ("filledSize", .num 9)] 9).2.1 :=
  C10_parse_nonneg_amended [("status", .str "matched"), ("filledSize", .num 9)] 9
    (by norm_num) ⟨"filled", by decide, by with_unfolding_all rfl⟩

/-- C5: amended claim.  For every dict-shaped venue payload: when the
normalized status is a terminal fill (`filled`/`closed`/`matched`) or a
terminal non-fill (`cancelled`/`expired`), the monitor loop returns it with
the normalized filled size immediately — one poll consumed, any further
scheduled polls ignored; and when no fill field or fills list yields a
positive quantity but the status is a terminal fill (and the requested size
is truthy), the requested size is reported as filled.  In the spec's
scenario the returned status is `matched` (a terminal-fill status), not the
literal string `filled` the original claim names. -/
theorem C5_monitor_terminal_amended (d : List (String × PyVal))
    (rest : List (Option PyVal)) (sz : ℚ) (last : Option String × ℚ) :
    ((parse_order_info d sz).1 ∈ fillSet ∨ (parse_order_info d sz).1 ∈ cancelSet →
        monitorGo sz (some (.dict d) :: rest) last
          = (.ok ((some (parse_order_info d sz).1, (parse_order_info d sz).2.1), false), 1))
    ∧ ((parse_order_info d sz).1 ∈ fillSet → rawFilledSize d ≤ 0 → sz ≠ 0 →
        (parse_order_info d sz).2.1 = sz) := by
  constructor
  · intro hterm
    have hdne : d ≠ [] := by
      intro h0
      subst h0
      have h1 : (parse_order_info ([] : List (String × PyVal)) sz).1 = "" := by
        with_unfolding_all rfl
      rw [h1] at hterm
      rcases hterm with h | h <;> simp [fillSet, cancelSet] at h
    have htr : truthy (.dict d) = true := by
      simp [truthy, hdne]
    simp only [monitorGo, htr, if_true]
    rcases hterm with hf | hc
    · rw [if_pos hf]
    · have hnf : (parse_order_info d sz).1 ∉ fillSet := by
        intro hf
        have hcEq : (parse_order_info d sz).1 = "cancelled"
            ∨ (parse_order_info d sz).1 = "expired" := by
          rcases List.mem_cons.mp hc with h | h
          · exact Or.inl h
          · rcases List.mem_cons.mp h with h | h
            · exact Or.inr h
            · cases h
        have hfEq : (parse_order_info d sz).1 = "filled"
            ∨ (parse_order_info d sz).1 = "closed"
            ∨ (parse_order_info d sz).1 = "matched" := by
          rcases List.mem_cons.mp hf with h | h
          · exact Or.inl h
          · rcases List.mem_cons.mp h with h | h
            · exact Or.inr (Or.inl h)
            · rcases List.mem_cons.mp h with h | h
              · exact Or.inr (Or.inr h)
              · cases h
        rcases hcEq with h1 | h1 <;> rcases hfEq with h2 | h2 | h2 <;>
          rw [h1] at h2 <;> exact absurd h2 (by decide)
      rw [if_neg hnf, if_pos hc]
  · intro hfill hraw hsz
    have hfill' : (pyStr (pyGetD d "status" (.str ""))).toLower ∈ fillSet := hfill
    show (if rawFilledSize d ≤ 0 ∧ sz ≠ 0 then
        if (pyStr (pyGetD d "status" (.str ""))).toLower ∈ fillSet then sz
        else rawFilledSize d
      else rawFilledSize d) = sz
    rw [if_pos ⟨hraw, hsz⟩, if_pos hfill']

set_option maxRecDepth 40000 in
/-- C5 counterexample: the spec scenario — a 9.0-size order whose first
poll reports `status=matched, filledSize=9.0` — makes the lifecycle return
the status string "matched" (with 9.0), not the literal pair
`("filled", 9.0)` the claim names. -/
theorem C5_counterexample :
    (execute_trade_lagger
        ⟨.ok (), .ok (.dict [("orderId", .str "x")]),
          [some (.dict [("status", .str "matched"), ("filledSize", .num 9)])], false⟩
        (1/2) (1/10) (27/5)).1
      = .ok (some "matched", 9)
    ∧ (some "matched" : Option String) ≠ some "filled" := by
  constructor
  · with_unfolding_all rfl
  · decide

set_option maxRecDepth 40000 in
/-- C5 witness: the scenario payload returns immediately from the first
poll with `("matched", 9.0)` and consumes exactly one poll. -/
theorem C5_witness :
    monitorGo 9 [some (.dict [("status", .str "matched"), ("filledSize", .num 9)])] (none, 0)
      = (.ok ((some "matched", 9), false), 1) := by
  have h := (C5_monitor_terminal_amended
      [("status", .str "matched"), ("filledSize", .num 9)] [] 9 (none, 0)).1
  have hp : parse_order_info [("status", PyVal.str "matched"), ("filledSize", PyVal.num 9)] 9
      = ("matched", 9, .pynone) := by with_unfolding_all rfl
  rw [hp] at h
  simpa using h (Or.inl (by decide))

/-- C6: a monitoring run that ends by timeout (the poll budget is
exhausted) without having observed a terminal status makes the lifecycle
issue exactly one cancel request; if `cancel_order` reports success the
result is `("cancelled", partially-filled-so-far)`, otherwise the last
observed non-terminal status is returned unchanged with the same
partially filled size. -/
theorem C6_timeout_cancel (venue : Venue) (p t amt : ℚ) (st? : Option String)
    (filled : ℚ) (n : ℕ)
    (hcap : ¬ (9 : ℚ)/10 < round2 (p + t))
    (hcreate : venue.createResult = .ok ())
    (hpost : ∃ resp, venue.postResult = .ok resp ∧ (extract_order_id resp).isSome)
    (hmon : monitorGo (round2 (amt / round2 (p + t))) venue.polls (none, 0)
        = (.ok ((st?, filled), true), n))
    (hnf : optMem st? fillSet = false) (hnc : optMem st? cancelSet = false) :
    (execute_trade_lagger venue p t amt).1
        = .ok ((if venue.cancelOk then some "cancelled" else st?), filled)
    ∧ countCancel (execute_trade_lagger venue p t amt).2 = 1 := by
  obtain ⟨resp, hpostEq, hoid⟩ := hpost
  obtain ⟨oid, hoidEq⟩ := Option.isSome_iff_exists.mp hoid
  have hrun : execute_trade_lagger venue p t amt
      = (if venue.cancelOk then
          (.ok (some "cancelled", filled),
            [VCall.create, VCall.post] ++ List.replicate n .poll ++ [.cancel])
        else
          (.ok (st?, filled),
            [VCall.create, VCall.post] ++ List.replicate n .poll ++ [.cancel])) := by
    simp only [execute_trade_lagger, hcreate, hpostEq, hoidEq, hmon]
    rw [if_neg hcap]
    rw [if_neg (show ¬ optMem st? fillSet = true by simp [hnf])]
    rw [if_neg (show ¬ optMem st? cancelSet = true by simp [hnc])]
  rw [hrun]
  cases venue.cancelOk <;>
    simp [countCancel_append, countCancel_replicate_poll, countCancel]

set_option maxRecDepth 40000 in
/-- C6 witness: the venue never reaches a terminal status within the poll
budget (one poll reporting "live"), `cancel_order` succeeds: the lifecycle
returns `("cancelled", 0)` having issued exactly one cancel request. -/
theorem C6_witness :
    (execute_trade_lagger
        ⟨.ok (), .ok (.dict [("orderId", .str "x")]),
          [some (.dict [("status", .str "live")])], true⟩ (1/2) (1/10) 10).1
      = .ok (some "cancelled", 0)
    ∧ countCancel (execute_trade_lagger
        ⟨.ok (), .ok (.dict [("orderId", .str "x")]),
          [some (.dict [("status", .str "live")])], true⟩ (1/2) (1/10) 10).2 = 1 := by
  have h := C6_timeout_cancel
    ⟨.ok (), .ok (.dict [("orderId", .str "x")]),
      [some (.dict [("status", .str "live")])], true⟩
    (1/2) (1/10) 10 (some "live") 0 1
    (by with_unfolding_all decide)
    rfl
    ⟨.dict [("orderId", .str "x")], rfl, by with_unfolding_all rfl⟩
    (by with_unfolding_all rfl)
    (by decide) (by decide)
  simpa using h
